/-
Verification of the bitmap slice engine (smith61/bitmap_rs).

Shallow embedding conventions:
  * A storage word of bit width `W` is a `Nat`; real words satisfy `w < 2 ^ W`.
    The embedding is parametrized by `W : Nat` (`BitStore::BIT_COUNT`), covering
    every word type of the crate (`bool` is `W = 1`, `u8` is `W = 8`, ...).
  * A word buffer is a `List Nat`; the raw pointer arithmetic of the source
    (`ptr.add k`) becomes `List.drop k`, reads become `List.getD _ 0`.
  * Functions that can panic in Rust return `Option`; `none` models the panic.
    `find_next_in_range` returns `Option (Option Nat)`: the outer layer models
    panics, the inner layer models the `Option<usize>` result.
  * `usize` is modelled as 64 bits wide (`USIZE_MAX`).
-/
import Mathlib

set_option maxHeartbeats 1000000

namespace BitmapRs

/-- Model of `usize::MAX` (64-bit target). -/
def USIZE_MAX : Nat := 2 ^ 64 - 1

/-- Embeds `polyfill::div_ceil`. -/
def div_ceil (lhs rhs : Nat) : Nat :=
  if lhs % rhs ≠ 0 then lhs / rhs + 1 else lhs / rhs

/-- Embeds the bitwise complement `!x` of a `W`-bit word (xor with all ones). -/
def bnot (W x : Nat) : Nat := (2 ^ W - 1) ^^^ x

/-- Embeds `BitStore::create_bit_mask` (`1 << bit_index`); callers guarantee
`bit_index < W`, the `% 2 ^ W` merely totalizes the width truncation. -/
def create_bit_mask (W bit_index : Nat) : Nat := 2 ^ bit_index % 2 ^ W

/-- Embeds `BitStore::create_range_mask`; callers guarantee
`start_bit + bit_count ≤ W`. -/
def create_range_mask (W start_bit bit_count : Nat) : Nat :=
  if bit_count = W then 2 ^ W - 1
  else (2 ^ bit_count - 1) * 2 ^ start_bit % 2 ^ W

/-- Embeds `BitStore::trailing_zeros` on a `W`-bit word
(`trailing_zeros W 0 = W`). -/
def trailing_zeros : Nat → Nat → Nat
  | 0, _ => 0
  | w + 1, x => if x % 2 = 1 then 0 else trailing_zeros w (x / 2) + 1

/-- Embeds `BitmapSliceImpl` (`slice/api.rs`): buffer address (the word list
from that address on), bit count and first-bit offset.  The `Mutability`
phantom parameter has no runtime content and is dropped. -/
structure BitmapSliceImpl where
  buffer : List Nat
  first_bit_offset : Nat
  bit_count : Nat
deriving DecidableEq

/-- Embeds `BitmapSliceImpl::size`. -/
def size (s : BitmapSliceImpl) : Nat := s.bit_count

/-- Spec-level helper: the bit stored at absolute (physical) bit position `p`
of a word buffer. -/
def wordOf (W : Nat) (buf : List Nat) (p : Nat) : Bool :=
  (buf.getD (p / W) 0).testBit (p % W)

/-- Embeds `BitmapSliceImpl::translate_bit_index`; `none` is the
out-of-bounds panic. -/
def translate_bit_index (W : Nat) (s : BitmapSliceImpl) (bit_index : Nat) :
    Option (Nat × Nat) :=
  if s.bit_count ≤ bit_index then none
  else
    let real_bit_index := bit_index + s.first_bit_offset
    some (real_bit_index / W, real_bit_index % W)

/-- Embeds `BitmapSliceImpl::get_bit`. -/
def get_bit (W : Nat) (s : BitmapSliceImpl) (bit_index : Nat) : Option Bool :=
  if s.bit_count ≤ bit_index then none
  else
    let real := bit_index + s.first_bit_offset
    some (decide ((s.buffer.getD (real / W) 0 &&& create_bit_mask W (real % W)) ≠ 0))

/-- Embeds the scan loop of `BitmapSliceImpl::find_next_in_range`.  The source
iterates `current_slot` from `starting_slot` while `current_slot < ending_slot`;
here the remaining iteration count `slots_left = ending_slot - current_slot`
drives the structural recursion. -/
def find_next_loop (W : Nat) (clear_bit : Bool) (buf : List Nat)
    (off starting_slot starting_offset ending_bit : Nat) :
    Nat → Nat → Option Nat
  | _, 0 => none
  | current_slot, slots_left + 1 =>
    let bits0 := buf.getD current_slot 0
    let bits1 :=
      if current_slot = starting_slot then
        if clear_bit then bits0 ||| create_range_mask W 0 starting_offset
        else bits0 &&& bnot W (create_range_mask W 0 starting_offset)
      else bits0
    let bits := if clear_bit then bnot W bits1 else bits1
    if bits ≠ 0 then
      let first_matching_bit := current_slot * W + trailing_zeros W bits - off
      if first_matching_bit < ending_bit then some first_matching_bit else none
    else
      find_next_loop W clear_bit buf off starting_slot starting_offset ending_bit
        (current_slot + 1) slots_left

/-- Embeds `BitmapSliceImpl::find_next_in_range` (`slice/internal.rs`).
Outer `none` models the two possible panics (range extent exceeding the view
size, and `translate_bit_index` on a start at or past the view size). -/
def find_next_in_range (W : Nat) (clear_bit : Bool) (s : BitmapSliceImpl)
    (lo hi : Nat) : Option (Option Nat) :=
  if hi ≤ lo then some none
  else if s.bit_count < hi - lo then none
  else if s.bit_count ≤ lo then none
  else
    let starting_slot := (lo + s.first_bit_offset) / W
    let starting_offset := (lo + s.first_bit_offset) % W
    let ending_bit := hi + s.first_bit_offset
    let ending_slot := div_ceil ending_bit W
    some (find_next_loop W clear_bit s.buffer s.first_bit_offset starting_slot
      starting_offset ending_bit starting_slot (ending_slot - starting_slot))

/-- Embeds `BitmapSliceImpl::find_next_set_from`. -/
def find_next_set_from (W : Nat) (s : BitmapSliceImpl) (starting_bit : Nat) :
    Option (Option Nat) :=
  find_next_in_range W false s starting_bit s.bit_count

/-- Embeds `BitmapSliceImpl::find_next_clear_from`. -/
def find_next_clear_from (W : Nat) (s : BitmapSliceImpl) (starting_bit : Nat) :
    Option (Option Nat) :=
  find_next_in_range W true s starting_bit s.bit_count

/-- Embeds `BitmapSliceImpl::find_next_set_range_from_capped`. -/
def find_next_set_range_from_capped (W : Nat) (s : BitmapSliceImpl)
    (starting_bit maximum_run_length : Nat) : Option (Option (Nat × Nat)) :=
  match find_next_in_range W false s starting_bit s.bit_count with
  | none => none
  | some none => some none
  | some (some first_set_bit) =>
    let cap := min maximum_run_length (s.bit_count - first_set_bit)
    match find_next_in_range W true s (first_set_bit + 1) (first_set_bit + cap) with
    | none => none
    | some next_clear_bit =>
      some (some (first_set_bit, next_clear_bit.getD (first_set_bit + cap) - first_set_bit))

/-- Embeds `BitmapSliceImpl::find_next_set_range_from`. -/
def find_next_set_range_from (W : Nat) (s : BitmapSliceImpl) (starting_bit : Nat) :
    Option (Option (Nat × Nat)) :=
  find_next_set_range_from_capped W s starting_bit USIZE_MAX

/-- Embeds `BitmapSliceImpl::find_next_clear_range_from_capped`. -/
def find_next_clear_range_from_capped (W : Nat) (s : BitmapSliceImpl)
    (starting_bit maximum_run_length : Nat) : Option (Option (Nat × Nat)) :=
  match find_next_in_range W true s starting_bit s.bit_count with
  | none => none
  | some none => some none
  | some (some first_clear_bit) =>
    let cap := min maximum_run_length (s.bit_count - first_clear_bit)
    match find_next_in_range W false s (first_clear_bit + 1) (first_clear_bit + cap) with
    | none => none
    | some next_set_bit =>
      some (some (first_clear_bit, next_set_bit.getD (first_clear_bit + cap) - first_clear_bit))

/-- Embeds `BitmapSliceImpl::find_next_clear_range_from`. -/
def find_next_clear_range_from (W : Nat) (s : BitmapSliceImpl) (starting_bit : Nat) :
    Option (Option (Nat × Nat)) :=
  find_next_clear_range_from_capped W s starting_bit USIZE_MAX

/-- Embeds `BitmapSliceImpl::find_first_clear_range`. -/
def find_first_clear_range (W : Nat) (s : BitmapSliceImpl) :
    Option (Option (Nat × Nat)) :=
  find_next_clear_range_from W s 0

/-- Embeds `BitmapSliceImpl::new` (both the `Const` and the `Mut` variant have
this exact body).  `none` models the two panics: the explicit ones, and the
implicit panic of the slice indexing `buffer[starting_slot..ending_slot]`. -/
def slice_new (W : Nat) (buffer : List Nat) (bstart bend : Nat) :
    Option BitmapSliceImpl :=
  if bend < bstart then none
  else
    let starting_slot := bstart / W
    let ending_slot := div_ceil bend W
    if bend - bstart ≤ starting_slot ∨ bend - bstart < ending_slot then none
    else if buffer.length < ending_slot then none
    else some ⟨(buffer.drop starting_slot).take (ending_slot - starting_slot),
      bstart % W, bend - bstart⟩

/-- Embeds `BitmapSliceOperation` (`slice/internal.rs`). -/
inductive BitmapSliceOperation where
  | Clear
  | Set
  | Toggle
deriving DecidableEq

/-- Embeds `BitmapSliceOperation::apply` on a `W`-bit word. -/
def BitmapSliceOperation.apply (W : Nat) (op : BitmapSliceOperation)
    (target mask : Nat) : Nat :=
  match op with
  | .Clear => target &&& bnot W mask
  | .Set => target ||| mask
  | .Toggle => target ^^^ mask

/-- Spec-level helper: the effect of an operation on one masked bit. -/
def BitmapSliceOperation.bitEffect (op : BitmapSliceOperation) (b : Bool) : Bool :=
  match op with
  | .Clear => false
  | .Set => true
  | .Toggle => !b

/-- Embeds the write loop of `BitmapSliceImpl::modify_bit_range`.  The loop
state keeps the invariants of the source (`current_count = W - current_offset`
and `current_mask = create_range_mask current_offset current_count`, with
`current_offset = 0` from the second iteration on), so only
`(buf, slot, offset, remaining)` is carried.  The `0 < W - offset` conjunct in
the guard records that the source loop only terminates because
`current_count > 0` (always true at its call sites, where `offset < W`). -/
def modify_bit_range_loop (W : Nat) (op : BitmapSliceOperation)
    (buf : List Nat) (slot offset remaining : Nat) : List Nat :=
  if _h : 0 < W - offset ∧ W - offset ≤ remaining then
    modify_bit_range_loop W op
      (buf.set slot (op.apply W (buf.getD slot 0) (create_range_mask W offset (W - offset))))
      (slot + 1) 0 (remaining - (W - offset))
  else if remaining ≠ 0 then
    buf.set slot (op.apply W (buf.getD slot 0) (create_range_mask W offset remaining))
  else buf
termination_by remaining
decreasing_by omega

/-- Embeds `BitmapSliceImpl::modify_bit_range`; `none` is the invalid-range
panic (the validation precedes every write in the source, mirrored here by
returning `none` before the loop is entered). -/
def modify_bit_range (W : Nat) (s : BitmapSliceImpl) (lo hi : Nat)
    (op : BitmapSliceOperation) : Option BitmapSliceImpl :=
  if hi ≤ lo then some s
  else if s.bit_count ≤ lo ∨ s.bit_count < hi then none
  else
    let real := lo + s.first_bit_offset
    some { s with buffer := modify_bit_range_loop W op s.buffer (real / W) (real % W) (hi - lo) }

/-- Embeds `BitmapSliceImpl::modify_bit`; `none` is the
`translate_bit_index` panic. -/
def modify_bit (W : Nat) (s : BitmapSliceImpl) (bit_index : Nat)
    (op : BitmapSliceOperation) : Option BitmapSliceImpl :=
  if s.bit_count ≤ bit_index then none
  else
    let real := bit_index + s.first_bit_offset
    let new_word := op.apply W (s.buffer.getD (real / W) 0) (create_bit_mask W (real % W))
    some { s with buffer := s.buffer.set (real / W) new_word }

/-- Embeds `BitmapSliceImpl::set_bit`. -/
def set_bit (W : Nat) (s : BitmapSliceImpl) (bit_index : Nat) :
    Option BitmapSliceImpl :=
  modify_bit W s bit_index .Set

/-- Embeds `BitmapSliceImpl::set_bit_range`. -/
def set_bit_range (W : Nat) (s : BitmapSliceImpl) (lo hi : Nat) :
    Option BitmapSliceImpl :=
  modify_bit_range W s lo hi .Set

/-- Embeds `BitmapSliceImpl::clear_bit_range`. -/
def clear_bit_range (W : Nat) (s : BitmapSliceImpl) (lo hi : Nat) :
    Option BitmapSliceImpl :=
  modify_bit_range W s lo hi .Clear

/-- Embeds `BitmapSliceImpl::toggle_bit_range`. -/
def toggle_bit_range (W : Nat) (s : BitmapSliceImpl) (lo hi : Nat) :
    Option BitmapSliceImpl :=
  modify_bit_range W s lo hi .Toggle

/-- Spec-side comparison object for claim C3: calling `set_bit` once for each
listed index in order. -/
def set_bits_individually (W : Nat) :
    BitmapSliceImpl → List Nat → Option BitmapSliceImpl
  | s, [] => some s
  | s, i :: rest =>
    match set_bit W s i with
    | none => none
    | some s1 => set_bits_individually W s1 rest

/-- Embeds `BitmapSliceImpl::split_at` (and `split_at_mut`, whose body is
identical); `none` is the `bit_index > bit_count` panic. -/
def split_at (W : Nat) (s : BitmapSliceImpl) (bit_index : Nat) :
    Option (BitmapSliceImpl × BitmapSliceImpl) :=
  if s.bit_count < bit_index then none
  else
    let real_bit_index := bit_index + s.first_bit_offset
    some (⟨s.buffer, s.first_bit_offset, bit_index⟩,
      ⟨s.buffer.drop (real_bit_index / W), real_bit_index % W,
        s.bit_count - bit_index⟩)

/-- Embeds repeatedly calling `BitmapSliceRangeIter::next` (`slice/iter.rs`)
and collecting the yielded runs; `fuel` bounds the number of calls (the real
iterator is finite, any `fuel > bit_count` is exhaustive). -/
def range_iter_collect (W : Nat) (s : BitmapSliceImpl) :
    Nat → Nat → List (Nat × Nat)
  | 0, _ => []
  | fuel + 1, last_range_end =>
    if last_range_end < s.bit_count then
      match find_next_set_range_from W s last_range_end with
      | some (some next_range) =>
        next_range :: range_iter_collect W s fuel (next_range.1 + next_range.2)
      | _ => []
    else []

/-- Spec-side helper for claim C4: the logical bit sequence of a view. -/
def slice_bits (W : Nat) (s : BitmapSliceImpl) : List Bool :=
  (List.range s.bit_count).map (fun i => wordOf W s.buffer (i + s.first_bit_offset))

/-- Spec-side helper for claim C4: the maximal runs of `true` bits of a bit
sequence, produced by a naive bit-by-bit scan starting at index `i`. -/
def naive_runs : List Bool → Nat → List (Nat × Nat)
  | [], _ => []
  | false :: bs, i => naive_runs bs (i + 1)
  | true :: bs, i =>
    match naive_runs bs (i + 1) with
    | (st, c) :: rest =>
      if st = i + 1 then (i, c + 1) :: rest else (i, 1) :: (st, c) :: rest
    | [] => [(i, 1)]

/-- Embeds the zip-and-combine loop shared by the `BitAndAssign` /
`BitOrAssign` / `BitXorAssign` impls of `Bitmap` (`bitmap/traits.rs`):
`dest.iter_mut().zip(src.iter()).for_each(|(d, s)| *d ⋆= *s)`. -/
def bitwise_assign (f : Nat → Nat → Nat) : List Nat → List Nat → List Nat
  | [], _ => []
  | dest, [] => dest
  | d :: dest, s :: src => f d s :: bitwise_assign f dest src

/-- Embeds `BitAndAssign for Bitmap`. -/
def bitand_assign (dest src : List Nat) : List Nat :=
  bitwise_assign (fun d s => d &&& s) dest src

/-- Embeds `Bitmap::MAXIMUM_BUFFER_SIZE` (`usize::MAX / B::BIT_COUNT`). -/
def MAXIMUM_BUFFER_SIZE (W : Nat) : Nat := USIZE_MAX / W

/-- Embeds `Bitmap::as_slice`; `none` is the buffer-too-large panic, and the
success case inlines the `new_unchecked(buffer, 0, buffer.len() * W)` call. -/
def as_slice (W : Nat) (store : List Nat) : Option BitmapSliceImpl :=
  if MAXIMUM_BUFFER_SIZE W < store.length then none
  else some ⟨store, 0, store.length * W⟩

/-- Embeds `Bitmap::as_slice_mut` (same body as `as_slice`). -/
def as_slice_mut (W : Nat) (store : List Nat) : Option BitmapSliceImpl :=
  if MAXIMUM_BUFFER_SIZE W < store.length then none
  else some ⟨store, 0, store.length * W⟩

/-! Auxiliary lemmas about list reads and `W`-bit word operations. -/

theorem getD_set (l : List Nat) (i j v : Nat) :
    (l.set i v).getD j 0 = if i = j ∧ i < l.length then v else l.getD j 0 := by
  by_cases h1 : i = j
  · subst h1
    by_cases h2 : i < l.length
    · simp [List.getD_eq_getElem?_getD, List.getElem?_set, h2]
    · simp [List.getD_eq_getElem?_getD, List.getElem?_set, h2,
        List.getElem?_eq_none (Nat.le_of_not_lt h2)]
  · simp [List.getD_eq_getElem?_getD, List.getElem?_set, h1]

theorem getD_lt_of_wf (W : Nat) (buf : List Nat) (hwf : ∀ w ∈ buf, w < 2 ^ W)
    (i : Nat) : buf.getD i 0 < 2 ^ W := by
  by_cases h : i < buf.length
  · rw [List.getD_eq_getElem?_getD, List.getElem?_eq_getElem h]
    exact hwf _ (List.getElem_mem h)
  · rw [List.getD_eq_getElem?_getD, List.getElem?_eq_none (by omega)]
    exact Nat.two_pow_pos W

theorem testBit_bnot (W x r : Nat) (hx : x < 2 ^ W) :
    (bnot W x).testBit r = (decide (r < W) && !x.testBit r) := by
  unfold bnot
  rw [Nat.testBit_xor, Nat.testBit_two_pow_sub_one]
  by_cases hr : r < W
  · simp [hr]
  · have hxr : x.testBit r = false :=
      Nat.testBit_lt_two_pow (Nat.lt_of_lt_of_le hx (Nat.pow_le_pow_right (by omega) (by omega)))
    simp [hr, hxr]

theorem create_bit_mask_lt (W i : Nat) : create_bit_mask W i < 2 ^ W :=
  Nat.mod_lt _ (Nat.two_pow_pos W)

theorem create_bit_mask_testBit (W i r : Nat) (hi : i < W) :
    (create_bit_mask W i).testBit r = decide (r = i) := by
  unfold create_bit_mask
  rw [Nat.mod_eq_of_lt (Nat.pow_lt_pow_right (by omega) hi), Nat.testBit_two_pow]
  simp only [decide_eq_decide]
  exact eq_comm

theorem create_range_mask_lt (W start cnt : Nat) :
    create_range_mask W start cnt < 2 ^ W := by
  unfold create_range_mask
  split
  · have := Nat.two_pow_pos W; omega
  · exact Nat.mod_lt _ (Nat.two_pow_pos W)

theorem create_range_mask_testBit (W start cnt r : Nat) (h : start + cnt ≤ W) :
    (create_range_mask W start cnt).testBit r = decide (start ≤ r ∧ r < start + cnt) := by
  unfold create_range_mask
  split
  · rename_i hcnt
    have hstart : start = 0 := by omega
    subst hstart hcnt
    simp
  · have hlt : (2 ^ cnt - 1) * 2 ^ start < 2 ^ W := by
      have h1 : (2 ^ cnt - 1) * 2 ^ start < 2 ^ cnt * 2 ^ start :=
        (Nat.mul_lt_mul_right (Nat.two_pow_pos start)).mpr
          (by have := Nat.two_pow_pos cnt; omega)
      have h2 : 2 ^ cnt * 2 ^ start ≤ 2 ^ W := by
        rw [← Nat.pow_add]
        exact Nat.pow_le_pow_right (by omega) (by omega)
      omega
    rw [Nat.mod_eq_of_lt hlt, Nat.mul_comm, Nat.testBit_mul_pow_two,
      Nat.testBit_two_pow_sub_one]
    by_cases h1 : start ≤ r
    · by_cases h2 : r < start + cnt <;> simp [h1, h2] <;> omega
    · simp [h1]

theorem apply_testBit (W : Nat) (op : BitmapSliceOperation) (w mask r : Nat)
    (hw : w < 2 ^ W) (hm : mask < 2 ^ W) :
    (op.apply W w mask).testBit r =
      if mask.testBit r then op.bitEffect (w.testBit r) else w.testBit r := by
  have hwr : ¬ r < W → w.testBit r = false := fun hr =>
    Nat.testBit_lt_two_pow (Nat.lt_of_lt_of_le hw (Nat.pow_le_pow_right (by omega) (by omega)))
  have hmr : ¬ r < W → mask.testBit r = false := fun hr =>
    Nat.testBit_lt_two_pow (Nat.lt_of_lt_of_le hm (Nat.pow_le_pow_right (by omega) (by omega)))
  cases op with
  | Clear =>
    simp only [BitmapSliceOperation.apply, BitmapSliceOperation.bitEffect,
      Nat.testBit_and, testBit_bnot W mask r hm]
    by_cases hr : r < W
    · by_cases hmb : mask.testBit r <;> simp [hr, hmb]
    · by_cases hmb : mask.testBit r <;> simp [hr, hmb, hwr hr]
  | Set =>
    simp only [BitmapSliceOperation.apply, BitmapSliceOperation.bitEffect, Nat.testBit_or]
    by_cases hmb : mask.testBit r <;> simp [hmb]
  | Toggle =>
    simp only [BitmapSliceOperation.apply, BitmapSliceOperation.bitEffect, Nat.testBit_xor]
    by_cases hmb : mask.testBit r <;> by_cases hwb : w.testBit r <;> simp [hmb, hwb]

theorem apply_lt (W : Nat) (op : BitmapSliceOperation) (w mask : Nat)
    (hw : w < 2 ^ W) (hm : mask < 2 ^ W) : op.apply W w mask < 2 ^ W := by
  apply Nat.lt_pow_two_of_testBit
  intro i hi
  rw [apply_testBit W op w mask i hw hm]
  have hmb : mask.testBit i = false :=
    Nat.testBit_lt_two_pow (Nat.lt_of_lt_of_le hm (Nat.pow_le_pow_right (by omega) hi))
  have hwb : w.testBit i = false :=
    Nat.testBit_lt_two_pow (Nat.lt_of_lt_of_le hw (Nat.pow_le_pow_right (by omega) hi))
  simp [hmb, hwb]

theorem succ_mul_le_of_lt (W q slot : Nat) (h : slot < q) : slot * W + W ≤ q * W := by
  have h1 : (slot + 1) * W ≤ q * W := Nat.mul_le_mul_right W (by omega)
  have h2 : (slot + 1) * W = slot * W + W := by rw [Nat.succ_mul]
  omega

/-! Characterization of the `modify_bit_range` write loop. -/

theorem modify_bit_range_loop_length (W : Nat) (op : BitmapSliceOperation)
    (remaining : Nat) : ∀ buf slot offset,
    (modify_bit_range_loop W op buf slot offset remaining).length = buf.length := by
  induction remaining using Nat.strong_induction_on with
  | _ remaining ih =>
    intro buf slot offset
    rw [modify_bit_range_loop]
    split
    · rename_i h
      rw [ih _ (by omega)]
      simp
    · split
      · simp
      · rfl

theorem modify_bit_range_loop_wf (W : Nat) (op : BitmapSliceOperation)
    (remaining : Nat) : ∀ buf slot offset, (∀ w ∈ buf, w < 2 ^ W) →
    ∀ w ∈ modify_bit_range_loop W op buf slot offset remaining, w < 2 ^ W := by
  induction remaining using Nat.strong_induction_on with
  | _ remaining ih =>
    intro buf slot offset hwf
    rw [modify_bit_range_loop]
    split
    · rename_i h
      apply ih _ (by omega)
      intro w hw
      rcases List.mem_or_eq_of_mem_set hw with h1 | h1
      · exact hwf w h1
      · subst h1
        exact apply_lt W op _ _ (getD_lt_of_wf W buf hwf slot)
          (create_range_mask_lt W offset (W - offset))
    · split
      · intro w hw
        rcases List.mem_or_eq_of_mem_set hw with h1 | h1
        · exact hwf w h1
        · subst h1
          exact apply_lt W op _ _ (getD_lt_of_wf W buf hwf slot)
            (create_range_mask_lt W offset remaining)
      · exact hwf

theorem modify_bit_range_loop_testBit (W : Nat) (op : BitmapSliceOperation)
    (hW : 0 < W) (remaining : Nat) : ∀ buf slot offset q r,
    offset < W →
    slot * W + offset + remaining ≤ buf.length * W →
    (∀ w ∈ buf, w < 2 ^ W) →
    ((modify_bit_range_loop W op buf slot offset remaining).getD q 0).testBit r =
      if slot * W + offset ≤ q * W + r ∧ q * W + r < slot * W + offset + remaining ∧ r < W
      then op.bitEffect ((buf.getD q 0).testBit r)
      else (buf.getD q 0).testBit r := by
  induction remaining using Nat.strong_induction_on with
  | _ remaining ih =>
    intro buf slot offset q r hoff hbound hwf
    rw [modify_bit_range_loop]
    split
    · rename_i hcase
      obtain ⟨hc1, hc2⟩ := hcase
      have hofrem : offset + remaining ≥ W := by omega
      have hslotlen : slot < buf.length := by
        by_contra hcon
        push_neg at hcon
        have := Nat.mul_le_mul_right W hcon
        omega
      have hw0 : buf.getD slot 0 < 2 ^ W := getD_lt_of_wf W buf hwf slot
      have hmask : create_range_mask W offset (W - offset) < 2 ^ W :=
        create_range_mask_lt W offset (W - offset)
      have hwf1 : ∀ w ∈ buf.set slot
          (op.apply W (buf.getD slot 0) (create_range_mask W offset (W - offset))),
          w < 2 ^ W := by
        intro w hw
        rcases List.mem_or_eq_of_mem_set hw with h1 | h1
        · exact hwf w h1
        · subst h1; exact apply_lt W op _ _ hw0 hmask
      rw [ih _ (by omega) _ (slot + 1) 0 q r hW
        (by simp only [List.length_set]
            have hsm : (slot + 1) * W = slot * W + W := by rw [Nat.succ_mul]
            omega)
        hwf1]
      have hgd : (buf.set slot
          (op.apply W (buf.getD slot 0) (create_range_mask W offset (W - offset)))).getD q 0 =
          if slot = q then op.apply W (buf.getD slot 0) (create_range_mask W offset (W - offset))
          else buf.getD q 0 := by
        rw [getD_set]
        by_cases h : slot = q
        · subst h
          rw [if_pos ⟨rfl, hslotlen⟩, if_pos rfl]
        · rw [if_neg (by simp [h]), if_neg h]
      have hsm : (slot + 1) * W = slot * W + W := by rw [Nat.succ_mul]
      by_cases hq : slot = q
      · subst hq
        rw [hgd, if_pos rfl,
          apply_testBit W op _ _ r hw0 hmask,
          create_range_mask_testBit W offset (W - offset) r (by omega)]
        by_cases hr : r < W
        · have hnotih : ¬ ((slot + 1) * W + 0 ≤ slot * W + r ∧
              slot * W + r < (slot + 1) * W + 0 + (remaining - (W - offset)) ∧ r < W) := by
            omega
          rw [if_neg hnotih]
          by_cases hor : offset ≤ r
          · rw [if_pos (by simp; omega), if_pos (by omega)]
          · rw [if_neg (by simp; omega), if_neg (by omega)]
        · rw [if_neg (by omega), if_neg (by simp; omega), if_neg (by omega)]
      · rw [hgd, if_neg hq]
        apply if_congr _ rfl rfl
        rcases Nat.lt_or_ge slot q with hlt | hge
        · have := succ_mul_le_of_lt W q slot hlt
          omega
        · have hqlt : q < slot := by omega
          have := succ_mul_le_of_lt W slot q hqlt
          omega
    · rename_i hcase
      have hrem : remaining < W - offset := by omega
      split
      · rename_i hne
        have hslotlen : slot < buf.length := by
          by_contra hcon
          push_neg at hcon
          have := Nat.mul_le_mul_right W hcon
          omega
        have hw0 : buf.getD slot 0 < 2 ^ W := getD_lt_of_wf W buf hwf slot
        have hmask : create_range_mask W offset remaining < 2 ^ W :=
          create_range_mask_lt W offset remaining
        rw [getD_set]
        by_cases hq : slot = q
        · subst hq
          rw [if_pos ⟨rfl, hslotlen⟩,
            apply_testBit W op _ _ r hw0 hmask,
            create_range_mask_testBit W offset remaining r (by omega)]
          by_cases hor : offset ≤ r ∧ r < offset + remaining
          · rw [if_pos (by simp; omega), if_pos (by omega)]
          · rw [if_neg (by simp; omega), if_neg (by omega)]
        · rw [if_neg (by simp [hq])]
          rw [if_neg ?_]
          rcases Nat.lt_or_ge slot q with hlt | hge
          · have := succ_mul_le_of_lt W q slot hlt
            omega
          · have hqlt : q < slot := by omega
            have := succ_mul_le_of_lt W slot q hqlt
            omega
      · rename_i hz
        rw [if_neg (by omega)]

theorem and_bit_mask_ne_zero (W x r : Nat) (hr : r < W) :
    decide ((x &&& create_bit_mask W r) ≠ 0) = x.testBit r := by
  unfold create_bit_mask
  rw [Nat.mod_eq_of_lt (Nat.pow_lt_pow_right (by omega) hr), Nat.and_two_pow]
  cases h : x.testBit r
  · simp
  · have := Nat.two_pow_pos r
    simp [decide_eq_true_eq]

theorem get_bit_eq (W : Nat) (hW : 0 < W) (s : BitmapSliceImpl) (i : Nat)
    (hi : i < s.bit_count) :
    get_bit W s i = some ((s.buffer.getD ((i + s.first_bit_offset) / W) 0).testBit
      ((i + s.first_bit_offset) % W)) := by
  simp only [get_bit]
  rw [if_neg (by omega), and_bit_mask_ne_zero W _ _ (Nat.mod_lt _ hW)]

theorem set_bit_eq (W : Nat) (hW : 0 < W) (s : BitmapSliceImpl) (i : Nat)
    (hi : i < s.bit_count)
    (hview : s.bit_count + s.first_bit_offset ≤ s.buffer.length * W) :
    ∃ buf1, set_bit W s i = some { s with buffer := buf1 } ∧
      buf1.length = s.buffer.length ∧
      ∀ q r, (buf1.getD q 0).testBit r =
        if q * W + r = i + s.first_bit_offset ∧ r < W then true
        else (s.buffer.getD q 0).testBit r := by
  have hslot : (i + s.first_bit_offset) / W < s.buffer.length := by
    rw [Nat.div_lt_iff_lt_mul hW]
    omega
  have hr0 : (i + s.first_bit_offset) % W < W := Nat.mod_lt _ hW
  have hdm : (i + s.first_bit_offset) / W * W + (i + s.first_bit_offset) % W =
      i + s.first_bit_offset := by
    rw [Nat.mul_comm]
    exact Nat.div_add_mod _ W
  refine ⟨s.buffer.set ((i + s.first_bit_offset) / W)
      (BitmapSliceOperation.apply W .Set (s.buffer.getD ((i + s.first_bit_offset) / W) 0)
        (create_bit_mask W ((i + s.first_bit_offset) % W))), ?_, by simp, ?_⟩
  · show modify_bit W s i .Set = _
    unfold modify_bit
    rw [if_neg (by omega)]
  · intro q r
    rw [getD_set]
    by_cases hq : (i + s.first_bit_offset) / W = q
    · subst hq
      rw [if_pos ⟨rfl, hslot⟩]
      simp only [BitmapSliceOperation.apply, Nat.testBit_or,
        create_bit_mask_testBit W _ r hr0]
      by_cases hr : r = (i + s.first_bit_offset) % W
      · subst hr
        rw [if_pos ⟨by omega, by omega⟩]
        simp
      · rw [if_neg (by omega)]
        simp [hr]
    · rw [if_neg (by simp [hq]), if_neg ?_]
      rcases Nat.lt_or_ge ((i + s.first_bit_offset) / W) q with hlt | hge
      · have := succ_mul_le_of_lt W q _ hlt
        omega
      · have hql : q < (i + s.first_bit_offset) / W := by
          rcases Nat.lt_or_ge q ((i + s.first_bit_offset) / W) with h | h
          · exact h
          · omega
        have := succ_mul_le_of_lt W _ q hql
        omega

theorem set_bits_individually_eq (W : Nat) (hW : 0 < W) :
    ∀ (n lo : Nat) (s : BitmapSliceImpl),
    lo + n ≤ s.bit_count →
    s.bit_count + s.first_bit_offset ≤ s.buffer.length * W →
    ∃ buf1, set_bits_individually W s (List.range' lo n) = some { s with buffer := buf1 } ∧
      buf1.length = s.buffer.length ∧
      ∀ q r, (buf1.getD q 0).testBit r =
        if lo + s.first_bit_offset ≤ q * W + r ∧
            q * W + r < lo + n + s.first_bit_offset ∧ r < W
        then true
        else (s.buffer.getD q 0).testBit r := by
  intro n
  induction n with
  | zero =>
    intro lo s h1 h2
    refine ⟨s.buffer, rfl, rfl, ?_⟩
    intro q r
    rw [if_neg (by omega)]
  | succ n ihn =>
    intro lo s h1 h2
    obtain ⟨b1, hb1, hlen1, hchar1⟩ := set_bit_eq W hW s lo (by omega) h2
    obtain ⟨b2, hb2, hlen2, hchar2⟩ := ihn (lo + 1) { s with buffer := b1 }
      (by simp; omega) (by simp only [] at *; rw [hlen1]; simpa using h2)
    refine ⟨b2, ?_, by rw [hlen2]; simpa using hlen1, ?_⟩
    · rw [List.range'_succ]
      simp only [set_bits_individually, hb1]
      exact hb2
    · intro q r
      simp only [] at hchar2
      rw [hchar2 q r, hchar1 q r]
      split_ifs <;> first | rfl | omega

theorem modify_bit_range_eq (W : Nat) (op : BitmapSliceOperation) (hW : 0 < W)
    (s : BitmapSliceImpl) (lo hi : Nat)
    (hview : s.bit_count + s.first_bit_offset ≤ s.buffer.length * W)
    (hwf : ∀ w ∈ s.buffer, w < 2 ^ W)
    (hlo : lo < hi) (hhi : hi ≤ s.bit_count) :
    ∃ buf1, modify_bit_range W s lo hi op = some { s with buffer := buf1 } ∧
      buf1.length = s.buffer.length ∧
      (∀ w ∈ buf1, w < 2 ^ W) ∧
      ∀ q r, (buf1.getD q 0).testBit r =
        if lo + s.first_bit_offset ≤ q * W + r ∧
            q * W + r < hi + s.first_bit_offset ∧ r < W
        then op.bitEffect ((s.buffer.getD q 0).testBit r)
        else (s.buffer.getD q 0).testBit r := by
  have hoff2 : (lo + s.first_bit_offset) % W < W := Nat.mod_lt _ hW
  have hdm : (lo + s.first_bit_offset) / W * W + (lo + s.first_bit_offset) % W =
      lo + s.first_bit_offset := by
    rw [Nat.mul_comm]
    exact Nat.div_add_mod _ W
  have hbound : (lo + s.first_bit_offset) / W * W + (lo + s.first_bit_offset) % W +
      (hi - lo) ≤ s.buffer.length * W := by
    rw [hdm]
    omega
  refine ⟨modify_bit_range_loop W op s.buffer ((lo + s.first_bit_offset) / W)
      ((lo + s.first_bit_offset) % W) (hi - lo), ?_,
    modify_bit_range_loop_length W op _ s.buffer _ _,
    modify_bit_range_loop_wf W op _ s.buffer _ _ hwf, ?_⟩
  · unfold modify_bit_range
    rw [if_neg (by omega), if_neg (by omega)]
  · intro q r
    rw [modify_bit_range_loop_testBit W op hW (hi - lo) s.buffer _ _ q r hoff2 hbound hwf]
    exact if_congr (by omega) rfl rfl

/-- Claim C3: after `set_bit_range [lo, hi)` on a valid range, every bit inside
the range reads `true`, every bit outside it is unchanged, and the result is
the same state as setting each bit of the range individually with `set_bit`. -/
theorem set_bit_range_c3 (W : Nat) (s : BitmapSliceImpl) (lo hi : Nat)
    (hW : 0 < W) (_hoff : s.first_bit_offset < W)
    (hview : s.bit_count + s.first_bit_offset ≤ s.buffer.length * W)
    (hwf : ∀ w ∈ s.buffer, w < 2 ^ W)
    (hlo : lo ≤ hi) (hhi : hi ≤ s.bit_count) :
    ∃ s1, set_bit_range W s lo hi = some s1 ∧
      (∀ i, lo ≤ i → i < hi → get_bit W s1 i = some true) ∧
      (∀ i, i < s.bit_count → i < lo ∨ hi ≤ i → get_bit W s1 i = get_bit W s i) ∧
      set_bit_range W s lo hi = set_bits_individually W s (List.range' lo (hi - lo)) := by
  by_cases hem : hi ≤ lo
  · refine ⟨s, ?_, ?_, ?_, ?_⟩
    · unfold set_bit_range modify_bit_range
      rw [if_pos hem]
    · intro i h1 h2
      omega
    · intro i _ _
      rfl
    · rw [show hi - lo = 0 from by omega, List.range'_zero]
      unfold set_bit_range modify_bit_range
      rw [if_pos hem]
      rfl
  · push_neg at hem
    obtain ⟨B, hB, hBlen, hBwf, hBchar⟩ :=
      modify_bit_range_eq W .Set hW s lo hi hview hwf hem hhi
    obtain ⟨B2, hB2, hB2len, hB2char⟩ :=
      set_bits_individually_eq W hW (hi - lo) lo s (by omega) hview
    refine ⟨{ s with buffer := B }, hB, ?_, ?_, ?_⟩
    · intro i h1 h2
      rw [get_bit_eq W hW _ i (by dsimp only; omega)]
      dsimp only
      have hdm : (i + s.first_bit_offset) / W * W + (i + s.first_bit_offset) % W =
          i + s.first_bit_offset := by
        rw [Nat.mul_comm]
        exact Nat.div_add_mod _ W
      have hrW : (i + s.first_bit_offset) % W < W := Nat.mod_lt _ hW
      rw [hBchar ((i + s.first_bit_offset) / W) ((i + s.first_bit_offset) % W),
        if_pos ⟨by omega, by omega, hrW⟩]
      rfl
    · intro i hcnt hout
      rw [get_bit_eq W hW _ i (by dsimp only; omega), get_bit_eq W hW s i hcnt]
      dsimp only
      have hdm : (i + s.first_bit_offset) / W * W + (i + s.first_bit_offset) % W =
          i + s.first_bit_offset := by
        rw [Nat.mul_comm]
        exact Nat.div_add_mod _ W
      rw [hBchar ((i + s.first_bit_offset) / W) ((i + s.first_bit_offset) % W),
        if_neg (by omega)]
    · have hBB : B = B2 := by
        apply List.ext_getElem (by rw [hBlen, hB2len])
        intro q hq1 hq2
        apply Nat.eq_of_testBit_eq
        intro r
        have e1 := hBchar q r
        have e2 := hB2char q r
        rw [List.getD_eq_getElem?_getD, List.getElem?_eq_getElem hq1,
          Option.getD_some] at e1
        rw [List.getD_eq_getElem?_getD, List.getElem?_eq_getElem hq2,
          Option.getD_some] at e2
        rw [e1, e2]
        exact if_congr (by omega) rfl rfl
      show modify_bit_range W s lo hi .Set = _
      rw [hB, hB2, hBB]

/-- Claim C8 (amended form is not needed, the claim holds): applying
`toggle_bit_range` twice on a valid range restores the slice, words
included, to its state before the first call. -/
theorem toggle_bit_range_involution_c8 (W : Nat) (s : BitmapSliceImpl) (lo hi : Nat)
    (hW : 0 < W) (_hoff : s.first_bit_offset < W)
    (hview : s.bit_count + s.first_bit_offset ≤ s.buffer.length * W)
    (hwf : ∀ w ∈ s.buffer, w < 2 ^ W)
    (_hlo : lo ≤ hi) (hhi : hi ≤ s.bit_count) :
    (toggle_bit_range W s lo hi).bind (fun s1 => toggle_bit_range W s1 lo hi) = some s := by
  by_cases hem : hi ≤ lo
  · have h1 : toggle_bit_range W s lo hi = some s := by
      unfold toggle_bit_range modify_bit_range
      rw [if_pos hem]
    rw [h1]
    show toggle_bit_range W s lo hi = some s
    exact h1
  · push_neg at hem
    obtain ⟨B1, hB1, hlen1, hwf1, hchar1⟩ :=
      modify_bit_range_eq W .Toggle hW s lo hi hview hwf hem hhi
    obtain ⟨B2, hB2, hlen2, hwf2, hchar2⟩ :=
      modify_bit_range_eq W .Toggle hW { s with buffer := B1 } lo hi
        (by dsimp only; rw [hlen1]; exact hview) hwf1 hem (by dsimp only; exact hhi)
    show (modify_bit_range W s lo hi .Toggle).bind
      (fun s1 => modify_bit_range W s1 lo hi .Toggle) = some s
    rw [hB1]
    show modify_bit_range W { s with buffer := B1 } lo hi .Toggle = some s
    rw [hB2]
    have hBB : B2 = s.buffer := by
      apply List.ext_getElem (by rw [hlen2]; dsimp only; rw [hlen1])
      intro q hq1 hq2
      apply Nat.eq_of_testBit_eq
      intro r
      have e2 := hchar2 q r
      dsimp only at e2
      rw [hchar1 q r] at e2
      rw [List.getD_eq_getElem?_getD, List.getElem?_eq_getElem hq1,
        Option.getD_some] at e2
      rw [List.getD_eq_getElem?_getD, List.getElem?_eq_getElem hq2] at e2
      rw [e2]
      by_cases hc : lo + s.first_bit_offset ≤ q * W + r ∧
          q * W + r < hi + s.first_bit_offset ∧ r < W
      · rw [if_pos hc, if_pos hc]
        simp [BitmapSliceOperation.bitEffect]
      · rw [if_neg hc, if_neg hc]
        simp
    rw [hBB]

/-- Claim C5, amended: `set_bit_range`, `clear_bit_range` and
`toggle_bit_range` fault exactly on a non-empty range (`lo < hi`) whose end
exceeds the bit count; an inverted or empty range is a no-op, not a fault
(the `is_empty` early return fires before any validation). -/
theorem modify_bit_range_c5_amended (W : Nat) (s : BitmapSliceImpl) (lo hi : Nat)
    (op : BitmapSliceOperation) :
    (hi ≤ lo → modify_bit_range W s lo hi op = some s) ∧
    (lo < hi → (modify_bit_range W s lo hi op = none ↔ s.bit_count < hi)) := by
  constructor
  · intro h
    unfold modify_bit_range
    rw [if_pos h]
  · intro h
    unfold modify_bit_range
    rw [if_neg (by omega)]
    by_cases hc : s.bit_count ≤ lo ∨ s.bit_count < hi
    · rw [if_pos hc]
      constructor
      · intro
        omega
      · intro
        rfl
    · rw [if_neg hc]
      constructor
      · intro hx
        exact absurd hx (by simp)
      · intro
        omega

/-- Claim C5, counterexample to the claim as stated: the inverted range
`5..3` on an 8-bit view must fault according to the claim, but the code
returns successfully and leaves the slice untouched. -/
theorem modify_bit_range_c5_counterexample :
    ¬ 5 ≤ 3 ∧
    modify_bit_range 8 ⟨[0], 0, 8⟩ 5 3 .Set = some ⟨[0], 0, 8⟩ ∧
    modify_bit_range 8 ⟨[0], 0, 8⟩ 5 3 .Clear = some ⟨[0], 0, 8⟩ ∧
    modify_bit_range 8 ⟨[0], 0, 8⟩ 5 3 .Toggle = some ⟨[0], 0, 8⟩ := by
  refine ⟨by omega, ?_, ?_, ?_⟩ <;> rfl

theorem getD_drop (l : List Nat) (n m : Nat) :
    (l.drop n).getD m 0 = l.getD (n + m) 0 := by
  simp [List.getD_eq_getElem?_getD, List.getElem?_drop]

/-- Claim C6: `split_at k` on a view with `k ≤ size` yields two views of sizes
`k` and `size - k`; bit `i` of the first half is original bit `i`, and bit `j`
of the second half is original bit `k + j`, so the halves exactly partition the
original bit pattern. -/
theorem split_at_c6 (W : Nat) (s : BitmapSliceImpl) (k : Nat)
    (hW : 0 < W) (hk : k ≤ s.bit_count) :
    ∃ fst snd, split_at W s k = some (fst, snd) ∧
      fst.bit_count = k ∧ snd.bit_count = s.bit_count - k ∧
      (∀ i, i < k → get_bit W fst i = get_bit W s i) ∧
      (∀ j, j < s.bit_count - k → get_bit W snd j = get_bit W s (k + j)) := by
  refine ⟨⟨s.buffer, s.first_bit_offset, k⟩,
    ⟨s.buffer.drop ((k + s.first_bit_offset) / W), (k + s.first_bit_offset) % W,
      s.bit_count - k⟩, ?_, rfl, rfl, ?_, ?_⟩
  · unfold split_at
    rw [if_neg (by omega)]
  · intro i hi
    rw [get_bit_eq W hW _ i (by dsimp only; omega), get_bit_eq W hW s i (by omega)]
  · intro j hj
    rw [get_bit_eq W hW _ j (by dsimp only; omega), get_bit_eq W hW s (k + j) (by omega)]
    dsimp only
    rw [getD_drop, Nat.add_comm j ((k + s.first_bit_offset) % W)]
    have hdm := Nat.div_add_mod (k + s.first_bit_offset) W
    have h1 : k + j + s.first_bit_offset =
        W * ((k + s.first_bit_offset) / W) + ((k + s.first_bit_offset) % W + j) := by
      omega
    rw [h1, Nat.mul_add_div hW, Nat.mul_add_mod]

/-- Claim C9: the bitwise-assign collaborator zips the two word sequences,
combining exactly the first `min len_dest len_src` destination words and
leaving the rest unchanged (total, so no fault); and in the concrete 64-bit
scenario `A &= B` with `A = bits 0..32 set`, `B = bits 16..48 set`, the result
word is `0x00000000FFFF0000`. -/
theorem bitand_assign_c9 :
    (∀ (f : Nat → Nat → Nat) (dest src : List Nat),
      (bitwise_assign f dest src).length = dest.length ∧
      (∀ i, i < min dest.length src.length →
        (bitwise_assign f dest src).getD i 0 = f (dest.getD i 0) (src.getD i 0)) ∧
      (∀ i, min dest.length src.length ≤ i →
        (bitwise_assign f dest src).getD i 0 = dest.getD i 0)) ∧
    bitand_assign [0xFFFFFFFF] [0x0000FFFFFFFF0000] = [0x00000000FFFF0000] := by
  constructor
  · intro f dest src
    induction dest generalizing src with
    | nil =>
      refine ⟨by simp [bitwise_assign], ?_, ?_⟩
      · intro i h
        simp at h
      · intro i h
        simp [bitwise_assign]
    | cons d ds ihd =>
      cases src with
      | nil =>
        refine ⟨by simp [bitwise_assign], ?_, ?_⟩
        · intro i h
          simp at h
        · intro i h
          simp [bitwise_assign]
      | cons a as =>
        obtain ⟨ih1, ih2, ih3⟩ := ihd as
        have harm : bitwise_assign f (d :: ds) (a :: as) =
            f d a :: bitwise_assign f ds as := by
          simp [bitwise_assign]
        refine ⟨?_, ?_, ?_⟩
        · rw [harm]
          simp [ih1]
        · intro i h
          rw [harm]
          match i with
          | 0 => rfl
          | n + 1 =>
            show (bitwise_assign f ds as).getD n 0 = _
            exact ih2 n (by simp at h; omega)
        · intro i h
          rw [harm]
          match i with
          | 0 =>
            exfalso
            simp at h
          | n + 1 =>
            show (bitwise_assign f ds as).getD n 0 = _
            exact ih3 n (by simp at h; omega)
  · decide

/-- Claim C10: `as_slice` and `as_slice_mut` fault exactly when the store has
more than `MAXIMUM_BUFFER_SIZE = usize::MAX / W` words; otherwise they return
the view over the whole store with offset `0` and bit count `len * W`, which
then cannot exceed `usize::MAX` (no overflow of the bit count). -/
theorem as_slice_c10 (W : Nat) (hW : 0 < W) (store : List Nat) :
    (MAXIMUM_BUFFER_SIZE W < store.length →
      as_slice W store = none ∧ as_slice_mut W store = none) ∧
    (store.length ≤ MAXIMUM_BUFFER_SIZE W →
      as_slice W store = some ⟨store, 0, store.length * W⟩ ∧
      as_slice_mut W store = some ⟨store, 0, store.length * W⟩ ∧
      store.length * W ≤ USIZE_MAX) := by
  constructor
  · intro h
    constructor
    · unfold as_slice
      rw [if_pos h]
    · unfold as_slice_mut
      rw [if_pos h]
  · intro h
    refine ⟨?_, ?_, ?_⟩
    · unfold as_slice
      rw [if_neg (by omega)]
    · unfold as_slice_mut
      rw [if_neg (by omega)]
    · unfold MAXIMUM_BUFFER_SIZE at h
      exact (Nat.le_div_iff_mul_le hW).mp h

/-- Claim C1 (code bug): on the view with first-bit offset 4 and size 3 over
the single word `0x80`, all three view bits are clear, yet
`find_next_in_range` searching for a set bit in `[0, 3)` returns index 3 — an
index not below `hi = 3` (and beyond the view): the code compares the
offset-corrected index against `hi + offset` instead of `hi`. -/
theorem find_next_in_range_c1_code_bug :
    find_next_in_range 8 false ⟨[0x80], 4, 3⟩ 0 3 = some (some 3) ∧
    slice_bits 8 ⟨[0x80], 4, 3⟩ = [false, false, false] := by decide

/-- Claim C2 (code bug): `new` validates the covering word span against
`bit_range.len()` (a bit count) instead of `buffer.len()` (its own panic
message names the buffer size): range `8..9` over a four-word buffer panics
although its covering span `[1, 2)` lies inside the buffer, and every empty
range panics; a full-buffer range still succeeds. -/
theorem slice_new_c2_code_bug :
    slice_new 8 [0, 0, 0, 0] 8 9 = none ∧
    slice_new 8 [0] 0 0 = none ∧
    slice_new 8 [0, 0] 0 16 = some ⟨[0, 0], 0, 16⟩ := by decide

/-- Claim C4 (code bug): on the offset-4, size-3 view over `[0x80]`, whose
bits are all clear, the set-bit-run iterator yields the bogus zero-length run
`(3, 0)` starting at the view size, while the naive bit-by-bit scan yields no
runs — consequence of the `find_next_in_range` bound bug. -/
theorem range_iter_c4_code_bug :
    range_iter_collect 8 ⟨[0x80], 4, 3⟩ 4 0 = [(3, 0)] ∧
    naive_runs (slice_bits 8 ⟨[0x80], 4, 3⟩) 0 = [] := by decide

/-- Claim C7: the concrete clear-run scenario over the words
`[0b11110000, 0b11111111, 0b00001111]` (offset 0, 24 bits):
`find_first_clear_range = (0, 4)`, `find_next_clear_range_from 5 = (20, 4)`,
and `find_next_clear_range_from 24` is absent. -/
theorem find_clear_range_scenario_c7 :
    find_first_clear_range 8 ⟨[0b11110000, 0b11111111, 0b00001111], 0, 24⟩ =
      some (some (0, 4)) ∧
    find_next_clear_range_from 8 ⟨[0b11110000, 0b11111111, 0b00001111], 0, 24⟩ 5 =
      some (some (20, 4)) ∧
    find_next_clear_range_from 8 ⟨[0b11110000, 0b11111111, 0b00001111], 0, 24⟩ 24 =
      some none := by decide

/-- Witness for C3 at `W = 8`, a two-word zeroed view of 16 bits, range
`[2, 11)`. -/
theorem set_bit_range_c3_witness :
    ∃ s1, set_bit_range 8 ⟨[0, 0], 0, 16⟩ 2 11 = some s1 ∧
      (∀ i, 2 ≤ i → i < 11 → get_bit 8 s1 i = some true) ∧
      (∀ i, i < 16 → i < 2 ∨ 11 ≤ i → get_bit 8 s1 i = get_bit 8 ⟨[0, 0], 0, 16⟩ i) ∧
      set_bit_range 8 ⟨[0, 0], 0, 16⟩ 2 11 =
        set_bits_individually 8 ⟨[0, 0], 0, 16⟩ (List.range' 2 9) :=
  set_bit_range_c3 8 ⟨[0, 0], 0, 16⟩ 2 11 (by decide) (by decide) (by decide)
    (by decide) (by decide) (by decide)

/-- Witness for the amended C5 at `W = 8`: the inverted range `6..2` is a
no-op and the overlong range `2..9` on an 8-bit view faults. -/
theorem modify_bit_range_c5_witness :
    modify_bit_range 8 ⟨[7], 0, 8⟩ 6 2 .Toggle = some ⟨[7], 0, 8⟩ ∧
    (modify_bit_range 8 ⟨[7], 0, 8⟩ 2 9 .Toggle = none ↔ 8 < 9) :=
  ⟨(modify_bit_range_c5_amended 8 ⟨[7], 0, 8⟩ 6 2 .Toggle).1 (by decide),
   (modify_bit_range_c5_amended 8 ⟨[7], 0, 8⟩ 2 9 .Toggle).2 (by decide)⟩

/-- Witness for C6 at `W = 8`, view offset 1 of 14 bits, split at 5. -/
theorem split_at_c6_witness :
    ∃ fst snd, split_at 8 ⟨[0xAA, 0x0F], 1, 14⟩ 5 = some (fst, snd) ∧
      fst.bit_count = 5 ∧ snd.bit_count = 9 ∧
      (∀ i, i < 5 → get_bit 8 fst i = get_bit 8 ⟨[0xAA, 0x0F], 1, 14⟩ i) ∧
      (∀ j, j < 9 → get_bit 8 snd j = get_bit 8 ⟨[0xAA, 0x0F], 1, 14⟩ (5 + j)) :=
  split_at_c6 8 ⟨[0xAA, 0x0F], 1, 14⟩ 5 (by decide) (by decide)

/-- Witness for C8 at `W = 8`, view offset 3 of 13 bits, range `[1, 9)`. -/
theorem toggle_bit_range_involution_c8_witness :
    (toggle_bit_range 8 ⟨[170, 255], 3, 13⟩ 1 9).bind
      (fun s1 => toggle_bit_range 8 s1 1 9) = some ⟨[170, 255], 3, 13⟩ :=
  toggle_bit_range_involution_c8 8 ⟨[170, 255], 3, 13⟩ 1 9 (by decide) (by decide)
    (by decide) (by decide) (by decide) (by decide)

/-- Witness for C9: the elementwise clauses at a concrete mismatched pair
(two destination words, one source word). -/
theorem bitand_assign_c9_witness :
    (bitwise_assign (fun d s => d &&& s) [3, 5] [1]).getD 0 0 =
      (fun d s => d &&& s) ([3, 5].getD 0 0) ([1].getD 0 0) ∧
    (bitwise_assign (fun d s => d &&& s) [3, 5] [1]).getD 1 0 = [3, 5].getD 1 0 :=
  ⟨(bitand_assign_c9.1 (fun d s => d &&& s) [3, 5] [1]).2.1 0 (by decide),
   (bitand_assign_c9.1 (fun d s => d &&& s) [3, 5] [1]).2.2 1 (by decide)⟩

/-- Witness for C10 at `W = 8` and a two-word store (below the limit). -/
theorem as_slice_c10_witness :
    as_slice 8 [1, 2] = some ⟨[1, 2], 0, 16⟩ ∧
    as_slice_mut 8 [1, 2] = some ⟨[1, 2], 0, 16⟩ ∧
    16 ≤ USIZE_MAX :=
  (as_slice_c10 8 (by decide) [1, 2]).2 (by decide)

end BitmapRs
